import Mathlib

/-!
Verification of the rzbackup repository engine against its specification.

Each section below gives a shallow embedding, in Lean, of one part of the
Rust source (src/zbackup/repo.rs, src/zbackup/index_cache.rs,
src/convert/gcindexes.rs, src/convert/gc_bundles.rs,
src/convert/balanceindexes.rs, src/convert/utils.rs,
src/misc/atomic_file_writer.rs, src/compress/lzma.rs), followed by theorems
about that embedding.

Identifiers (chunk, bundle, index ids) are 24 raw bytes in the source; they
are embedded as lists of naturals.  File reading, protobuf decoding, LZMA
decoding and SHA-256 are external collaborators of the code under
verification; they enter the embeddings as explicit parameters (a decode
function, an association list of available chunks, a hash function), so that
every theorem quantifies over their behaviour.
-/

abbrev ChunkId := List Nat

abbrev BundleId := List Nat

abbrev IndexId := List Nat

/-! ## LZMA reader (src/compress/lzma.rs, impl Read for LzmaReader)

The reader keeps two flags, `error` and `eof` (fields of `LzmaReader`).
Each call to `read` first checks `error` (panicking with "Error already"),
then `eof` (returning `Ok (0)`), then loops: fill the input buffer, run the
decoder, and act on the decoder result.  One round of that loop is embedded
as an `LzmaEvent`, which records what `fill_buf` and `lzma_code` produced:

* `truncated`    - `fill_buf` returned an empty buffer;
* `ioFail e`     - `fill_buf` itself failed (the `try!` propagates it);
* `streamEnd n`  - `lzma_code` returned `LZMA_STREAM_END` with `n` bytes out;
* `decodeFail c` - `lzma_code` returned an error code `c`;
* `outputFull n` - `lzma_code` returned `LZMA_OK` and `avail_out` is zero;
* `okPartial`    - `lzma_code` returned `LZMA_OK` with room left: loop again.

An exhausted event list behaves like an empty `fill_buf` (truncated input).
-/

structure LzmaState where
  error : Bool
  eof : Bool
deriving DecidableEq

/-- Outcome of a call that may panic instead of returning. -/
inductive PanicOr (α : Type) where
  | panicked (msg : String)
  | returned (value : α)
deriving DecidableEq

inductive LzmaEvent where
  | truncated
  | ioFail (msg : String)
  | streamEnd (bytesOut : Nat)
  | decodeFail (code : Nat)
  | outputFull (bytesOut : Nat)
  | okPartial
deriving DecidableEq

/-- The decode loop inside `LzmaReader::read`, from the first `fill_buf` on. -/
def lzmaReadLoop (st : LzmaState) : List LzmaEvent → (PanicOr (Except String Nat)) × LzmaState
  | [] =>
      (PanicOr.returned (Except.error "LZMA stream truncated"), { st with error := true })
  | event :: rest =>
      match event with
      | LzmaEvent.truncated =>
          (PanicOr.returned (Except.error "LZMA stream truncated"), { st with error := true })
      | LzmaEvent.ioFail msg =>
          (PanicOr.returned (Except.error msg), st)
      | LzmaEvent.streamEnd bytesOut =>
          (PanicOr.returned (Except.ok bytesOut), { st with eof := true })
      | LzmaEvent.decodeFail code =>
          (PanicOr.returned (Except.error ("LZMA error: " ++ toString code)),
            { st with error := true })
      | LzmaEvent.outputFull bytesOut =>
          (PanicOr.returned (Except.ok bytesOut), st)
      | LzmaEvent.okPartial =>
          lzmaReadLoop st rest

/-- Embeds `LzmaReader::read`: check `error`, then `eof`, then run the decode loop. -/
def lzmaRead (st : LzmaState) (events : List LzmaEvent) :
    (PanicOr (Except String Nat)) × LzmaState :=
  if st.error then
    (PanicOr.panicked "Error already", st)
  else if st.eof then
    (PanicOr.returned (Except.ok 0), st)
  else
    lzmaReadLoop st events

lemma lzmaReadLoop_truncated_or_decodeFail (st : LzmaState)
    (pre : List LzmaEvent) (event : LzmaEvent) (rest : List LzmaEvent)
    (hpre : ∀ e ∈ pre, e = LzmaEvent.okPartial)
    (hevent : event = LzmaEvent.truncated ∨ ∃ code, event = LzmaEvent.decodeFail code) :
    (∃ msg, lzmaReadLoop st (pre ++ event :: rest) =
      (PanicOr.returned (Except.error msg), { st with error := true })) := by
  induction pre with
  | nil =>
      rcases hevent with h | ⟨code, h⟩ <;> subst h
      · exact ⟨"LZMA stream truncated", rfl⟩
      · exact ⟨"LZMA error: " ++ toString code, rfl⟩
  | cons e pre ih =>
      have he : e = LzmaEvent.okPartial := hpre e (by simp)
      subst he
      simpa [lzmaReadLoop] using ih (fun e h => hpre e (by simp [h]))

/-- C10: a read whose failing round is truncated input or a decoder failure
returns an error and leaves the reader in the permanent error state: every
later call to `read` panics with "Error already" and leaves the state
unchanged (so all further calls panic as well).  By contrast a read that
reaches LZMA stream end sets `eof`, and every later call returns `Ok 0`
without changing the state. -/
theorem lzmaReader_error_sticky_eof_ok
    (st : LzmaState) (pre rest events : List LzmaEvent) (event : LzmaEvent)
    (hnoerr : st.error = false) (hnoeof : st.eof = false)
    (hpre : ∀ e ∈ pre, e = LzmaEvent.okPartial)
    (hevent : event = LzmaEvent.truncated ∨ ∃ code, event = LzmaEvent.decodeFail code) :
    (∃ msg, lzmaRead st (pre ++ event :: rest) =
        (PanicOr.returned (Except.error msg), { st with error := true })) ∧
    (lzmaRead { st with error := true } events =
        (PanicOr.panicked "Error already", { st with error := true })) ∧
    (∀ bytesOut,
      lzmaRead st (pre ++ LzmaEvent.streamEnd bytesOut :: rest) =
        (PanicOr.returned (Except.ok bytesOut), { st with eof := true })) ∧
    (lzmaRead { st with eof := true } events =
        (PanicOr.returned (Except.ok 0), { st with eof := true })) := by
  refine ⟨?_, ?_, ?_, ?_⟩
  · obtain ⟨msg, hmsg⟩ :=
      lzmaReadLoop_truncated_or_decodeFail st pre event rest hpre hevent
    exact ⟨msg, by simp [lzmaRead, hnoerr, hnoeof, hmsg]⟩
  · simp [lzmaRead]
  · intro bytesOut
    have hloop : lzmaReadLoop st (pre ++ LzmaEvent.streamEnd bytesOut :: rest) =
        (PanicOr.returned (Except.ok bytesOut), { st with eof := true }) := by
      induction pre with
      | nil => rfl
      | cons e pre ih =>
          have he : e = LzmaEvent.okPartial := hpre e (by simp)
          subst he
          simpa [lzmaReadLoop] using ih (fun e h => hpre e (by simp [h]))
    simp [lzmaRead, hnoerr, hnoeof, hloop]
  · simp [lzmaRead, hnoerr]

/-- C10 witness: a decoder failure poisons the reader; a second read panics.
A stream end sets `eof`; a second read returns `Ok 0`. -/
theorem lzmaReader_error_sticky_eof_ok_witness :
    (∃ msg, lzmaRead ⟨false, false⟩ [LzmaEvent.okPartial, LzmaEvent.decodeFail 9] =
        (PanicOr.returned (Except.error msg), ⟨true, false⟩)) ∧
    (lzmaRead ⟨true, false⟩ [LzmaEvent.outputFull 7] =
        (PanicOr.panicked "Error already", ⟨true, false⟩)) ∧
    (lzmaRead ⟨false, false⟩ [LzmaEvent.okPartial, LzmaEvent.streamEnd 5] =
        (PanicOr.returned (Except.ok 5), ⟨false, true⟩)) ∧
    (lzmaRead ⟨false, true⟩ [LzmaEvent.outputFull 7] =
        (PanicOr.returned (Except.ok 0), ⟨false, true⟩)) :=
  have h := lzmaReader_error_sticky_eof_ok ⟨false, false⟩ [LzmaEvent.okPartial] []
    [LzmaEvent.outputFull 7] (LzmaEvent.decodeFail 9) rfl rfl
    (by intro e h; simpa using h)
    (Or.inr ⟨9, rfl⟩)
  ⟨h.1, h.2.1, h.2.2.1 5, h.2.2.2⟩

/-! ## Chunk-lookup preconditions (src/zbackup/repo.rs, src/zbackup/index_cache.rs)

`RepositoryState.master_index` is `Option <MasterIndex>`; it is `None` until
`load_indexes` / `reload_indexes` stores a map.  `get_chunk_async_async`
(repo.rs line 1119), `get_index_entry` (line 1595) and `has_chunk`
(line 1634) each begin by panicking when it is still `None`; the first with
the message "Must load indexes before getting chunks", the other two with
"Must load indexes before getting index entries".  `IndexCache::get`
(index_cache.rs line 499) instead calls `.unwrap ()` on the `entries`
option, which panics with the standard `Option::unwrap` message.

The master index is embedded as an association list from chunk id to
(bundle id, size); only the guard behaviour matters here, so each embedded
function returns `PanicOr` of whatever the body would produce. -/

abbrev MasterIndexMap := List (ChunkId × (BundleId × Nat))

def masterIndexFind (masterIndex : MasterIndexMap) (chunkId : ChunkId) :
    Option (BundleId × Nat) :=
  (masterIndex.find? (fun entry => entry.1 = chunkId)).map (fun entry => entry.2)

/-- Embeds `Repository::get_chunk_async_async`, up to and including the master-index
lookup in `load_chunk_async_async`: panic when indexes are not loaded,
otherwise resolve the chunk to its bundle id or fail with "Missing chunk". -/
def getChunkAsyncAsyncEntry (masterIndex : Option MasterIndexMap) (chunkId : ChunkId) :
    PanicOr (Except String BundleId) :=
  match masterIndex with
  | none => PanicOr.panicked "Must load indexes before getting chunks"
  | some masterIndex =>
      match masterIndexFind masterIndex chunkId with
      | some entry => PanicOr.returned (Except.ok entry.1)
      | none => PanicOr.returned (Except.error "Missing chunk")

/-- Embeds `Repository::get_index_entry`. -/
def getIndexEntryFn (masterIndex : Option MasterIndexMap) (chunkId : ChunkId) :
    PanicOr (Except String (BundleId × Nat)) :=
  match masterIndex with
  | none => PanicOr.panicked "Must load indexes before getting index entries"
  | some masterIndex =>
      match masterIndexFind masterIndex chunkId with
      | some entry => PanicOr.returned (Except.ok entry)
      | none => PanicOr.returned (Except.error "Missing chunk")

/-- Embeds `Repository::has_chunk`. -/
def hasChunkFn (masterIndex : Option MasterIndexMap) (chunkId : ChunkId) :
    PanicOr Bool :=
  match masterIndex with
  | none => PanicOr.panicked "Must load indexes before getting index entries"
  | some masterIndex =>
      PanicOr.returned (masterIndexFind masterIndex chunkId).isSome

/-- Embeds `IndexCache::get`, whose body is `self.entries.as_ref ().unwrap ()`. -/
def indexCacheGet (entries : Option MasterIndexMap) (chunkId : ChunkId) :
    PanicOr (Option (BundleId × Nat)) :=
  match entries with
  | none => PanicOr.panicked "called Option::unwrap on a None value"
  | some entries => PanicOr.returned (masterIndexFind entries chunkId)

/-- C9 counterexample: the claim attaches the panic message "Must load
indexes before getting chunks" to all three repository methods, but
`has_chunk` (and `get_index_entry`) panic with "Must load indexes before
getting index entries", a different string. -/
theorem chunkLookup_panic_message_counterexample :
    hasChunkFn none [0] =
      PanicOr.panicked "Must load indexes before getting index entries" ∧
    getIndexEntryFn none [0] =
      PanicOr.panicked "Must load indexes before getting index entries" ∧
    "Must load indexes before getting index entries" ≠
      "Must load indexes before getting chunks" := by
  refine ⟨rfl, rfl, ?_⟩
  decide

/-- C9 amended: every chunk-lookup operation treats loaded indexes as a hard
precondition enforced by panic, not by an error value: before a load,
`get_chunk_async_async` panics with "Must load indexes before getting
chunks", `get_index_entry` and `has_chunk` panic with "Must load indexes
before getting index entries", and `IndexCache::get` panics on the unwrap of
the absent entries map. -/
theorem chunkLookup_requires_loaded_indexes (chunkId : ChunkId) :
    getChunkAsyncAsyncEntry none chunkId =
      PanicOr.panicked "Must load indexes before getting chunks" ∧
    getIndexEntryFn none chunkId =
      PanicOr.panicked "Must load indexes before getting index entries" ∧
    hasChunkFn none chunkId =
      PanicOr.panicked "Must load indexes before getting index entries" ∧
    indexCacheGet none chunkId =
      PanicOr.panicked "called Option::unwrap on a None value" :=
  ⟨rfl, rfl, rfl, rfl⟩

/-! ## Parallel index load thread budget (src/zbackup/index_cache.rs, load_indexes)

`IndexCache::load_indexes` computes
`num_threads = (num_cpus::get () - 1) * 7 / 3 + 1` with Rust integer
(truncating) division and subtraction on `usize` (`num_cpus::get ()` is at
least 1, so the subtraction never underflows), then runs a loop that tops up
`index_futures` while `index_futures.len () < num_threads` and afterwards
retires exactly one future per round via `select_all`.

The loop is embedded with an explicit fuel argument (the Rust loop always
terminates because each round either retires a future or exits, but the
embedding does not need that fact): `indexLoadTrace` returns the list of
in-flight counts observed right after each top-up phase, which is where the
in-flight count is at its per-round maximum. -/

def indexLoadNumThreads (numCpus : Nat) : Nat :=
  (numCpus - 1) * 7 / 3 + 1

/-- The thread-count formula as the claim states it: a ceiling division. -/
def indexLoadNumThreadsCeil (numCpus : Nat) : Nat :=
  ((numCpus - 1) * 7 + 2) / 3 + 1

def indexLoadTrace (numThreads : Nat) : Nat → Nat → Nat → List Nat
  | 0, _, _ => []
  | fuel + 1, remaining, inFlight =>
      let started := min (numThreads - inFlight) remaining
      let inFlightNow := inFlight + started
      if inFlightNow = 0 then
        []
      else
        inFlightNow ::
          indexLoadTrace numThreads fuel (remaining - started) (inFlightNow - 1)

/-- C7 counterexample: with 2 CPUs the loader computes
`(2 - 1) * 7 / 3 + 1 = 3` concurrent index-read tasks, while the formula in
the claim, `ceil ((2 - 1) * 7 / 3) + 1`, equals 4; the two formulas are not
equal. -/
theorem indexLoad_thread_formula_counterexample :
    indexLoadNumThreads 2 = 3 ∧ indexLoadNumThreadsCeil 2 = 4 ∧
      indexLoadNumThreads 2 ≠ indexLoadNumThreadsCeil 2 := by
  refine ⟨rfl, rfl, ?_⟩
  decide

lemma indexLoadTrace_le (numThreads fuel remaining inFlight : Nat)
    (hstart : inFlight ≤ numThreads) :
    ∀ observed ∈ indexLoadTrace numThreads fuel remaining inFlight,
      observed ≤ numThreads := by
  induction fuel generalizing remaining inFlight with
  | zero => intro observed h; simp [indexLoadTrace] at h
  | succ fuel ih =>
      intro observed h
      rw [indexLoadTrace] at h
      split at h
      · simp at h
      · rcases List.mem_cons.mp h with h | h
        · subst h
          have hmin : min (numThreads - inFlight) remaining ≤ numThreads - inFlight :=
            Nat.min_le_left _ _
          omega
        · exact ih _ _ (by omega) observed h

/-- C7 amended: the in-flight index-read count never exceeds the loader
thread budget, and that budget is `(num_cpu - 1) * 7 / 3 + 1` with
truncating (floor) integer division, not the ceiling form; the two agree
only when `(num_cpu - 1) * 7` is divisible by 3. -/
theorem indexLoad_inflight_bounded (numCpus fuel remaining : Nat) :
    (∀ observed ∈ indexLoadTrace (indexLoadNumThreads numCpus) fuel remaining 0,
        observed ≤ indexLoadNumThreads numCpus) ∧
    indexLoadNumThreads numCpus = (numCpus - 1) * 7 / 3 + 1 :=
  ⟨indexLoadTrace_le (indexLoadNumThreads numCpus) fuel remaining 0 (Nat.zero_le _),
    rfl⟩

/-- C7 witness: with 2 CPUs and 10 index files the count 3 is observed in
the dispatch trace and stays within the budget of 3. -/
theorem indexLoad_inflight_bounded_witness :
    3 ∈ indexLoadTrace (indexLoadNumThreads 2) 20 10 0 ∧
    3 ≤ indexLoadNumThreads 2 ∧
    indexLoadNumThreads 2 = (2 - 1) * 7 / 3 + 1 :=
  have h := indexLoad_inflight_bounded 2 20 10
  have hmem : 3 ∈ indexLoadTrace (indexLoadNumThreads 2) 20 10 0 := by decide
  ⟨hmem, h.1 3 hmem, h.2⟩

/-! ## Index load and merge (src/zbackup/repo.rs load_indexes_real,
src/zbackup/index_cache.rs load_index_future)

An index file decodes to a sequence of entries, each a bundle header (bundle
id) followed by the chunk records of that bundle (chunk id, size), embedded
as `IndexFile`.  The loader first scans `bundles/` into a set of bundle ids,
then reads every index file in parallel; each per-file task drops entries
whose bundle id is not in the bundle set and emits the remaining
(chunk id, (bundle id, size)) pairs in file order
(`load_index_future` / the closure in `load_indexes_real`).  The target map
collects the pairs file by file, a failed file contributing nothing, and a
plain insert resolving duplicate chunk ids in favour of the later insertion.
The parameter `files` lists the per-file read results in the order their
pairs reach the map (spawn order in `load_indexes_real`, completion order in
`IndexCache::load_indexes`). -/

abbrev IndexFile := List (BundleId × List (ChunkId × Nat))

def indexFileEntries (bundleIds : List BundleId) (file : IndexFile) :
    List (ChunkId × (BundleId × Nat)) :=
  file.flatMap (fun bundleEntry =>
    if bundleEntry.1 ∈ bundleIds then
      bundleEntry.2.map (fun record => (record.1, (bundleEntry.1, record.2)))
    else
      [])

def indexLoadResultEntries (bundleIds : List BundleId) :
    Except String IndexFile → List (ChunkId × (BundleId × Nat))
  | Except.error _ => []
  | Except.ok file => indexFileEntries bundleIds file

/-- The master index built by `load_indexes_real`: fold over the per-file
results, inserting each surviving pair; an insert shadows earlier pairs with
the same chunk id, which `masterIndexFind` reflects by scanning newest
first. -/
def loadIndexesReal (bundleIds : List BundleId)
    (files : List (Except String IndexFile)) : MasterIndexMap :=
  files.foldl
    (fun masterIndex fileResult =>
      (indexLoadResultEntries bundleIds fileResult).foldl
        (fun m entry => entry :: m) masterIndex)
    []

/-- All surviving pairs, in insertion order. -/
def flatIndexEntries (bundleIds : List BundleId)
    (files : List (Except String IndexFile)) : List (ChunkId × (BundleId × Nat)) :=
  files.flatMap (indexLoadResultEntries bundleIds)

lemma foldl_cons_eq_reverse_append {α : Type} (l init : List α) :
    l.foldl (fun m entry => entry :: m) init = l.reverse ++ init := by
  induction l generalizing init with
  | nil => simp
  | cons x l ih => simp [ih]

lemma loadIndexesReal_loop (bundleIds : List BundleId)
    (files : List (Except String IndexFile)) (init : MasterIndexMap) :
    files.foldl
      (fun masterIndex fileResult =>
        (indexLoadResultEntries bundleIds fileResult).foldl
          (fun m entry => entry :: m) masterIndex)
      init = (flatIndexEntries bundleIds files).reverse ++ init := by
  induction files generalizing init with
  | nil => simp [flatIndexEntries]
  | cons fileResult files ih =>
      rw [List.foldl_cons, ih, foldl_cons_eq_reverse_append]
      simp [flatIndexEntries, List.flatMap_cons, List.reverse_append,
        List.append_assoc]

lemma loadIndexesReal_eq (bundleIds : List BundleId)
    (files : List (Except String IndexFile)) :
    loadIndexesReal bundleIds files = (flatIndexEntries bundleIds files).reverse := by
  unfold loadIndexesReal
  rw [loadIndexesReal_loop]
  simp

lemma mem_indexFileEntries (bundleIds : List BundleId) (file : IndexFile)
    (entry : ChunkId × (BundleId × Nat)) :
    entry ∈ indexFileEntries bundleIds file ↔
      ∃ bundleEntry ∈ file, bundleEntry.1 ∈ bundleIds ∧
        ∃ record ∈ bundleEntry.2, entry = (record.1, (bundleEntry.1, record.2)) := by
  simp only [indexFileEntries, List.mem_flatMap]
  constructor
  · rintro ⟨bundleEntry, hmem, hentry⟩
    by_cases hb : bundleEntry.1 ∈ bundleIds
    · rw [if_pos hb, List.mem_map] at hentry
      obtain ⟨record, hrec, hentry⟩ := hentry
      exact ⟨bundleEntry, hmem, hb, record, hrec, hentry.symm⟩
    · rw [if_neg hb] at hentry
      simp at hentry
  · rintro ⟨bundleEntry, hmem, hb, record, hrec, hentry⟩
    exact ⟨bundleEntry, hmem, by
      rw [if_pos hb, List.mem_map]; exact ⟨record, hrec, hentry.symm⟩⟩

lemma mem_flatIndexEntries (bundleIds : List BundleId)
    (files : List (Except String IndexFile)) (entry : ChunkId × (BundleId × Nat)) :
    entry ∈ flatIndexEntries bundleIds files ↔
      ∃ file, Except.ok file ∈ files ∧ entry ∈ indexFileEntries bundleIds file := by
  simp only [flatIndexEntries, List.mem_flatMap]
  constructor
  · rintro ⟨fileResult, hmem, hentry⟩
    cases fileResult with
    | error e => simp [indexLoadResultEntries] at hentry
    | ok file => exact ⟨file, hmem, hentry⟩
  · rintro ⟨file, hmem, hentry⟩
    exact ⟨Except.ok file, hmem, hentry⟩

/-- C3: after a load, the master index maps a chunk id to the value of the
last-inserted surviving record for that chunk (a record survives when its
file loaded successfully and its bundle id is in the bundle scan); in
particular some mapping exists if and only if some successfully loaded index
file holds a record for the chunk under a bundle id found in the bundle
scan. -/
theorem masterIndex_lastWriterWins (bundleIds : List BundleId)
    (files : List (Except String IndexFile)) (chunkId : ChunkId) :
    masterIndexFind (loadIndexesReal bundleIds files) chunkId =
      ((flatIndexEntries bundleIds files).reverse.find?
          (fun entry => entry.1 = chunkId)).map (fun entry => entry.2) ∧
    ((masterIndexFind (loadIndexesReal bundleIds files) chunkId).isSome ↔
      ∃ file, Except.ok file ∈ files ∧
        ∃ bundleEntry ∈ file, bundleEntry.1 ∈ bundleIds ∧
          ∃ record ∈ bundleEntry.2, record.1 = chunkId) := by
  have hload := loadIndexesReal_eq bundleIds files
  refine ⟨by rw [hload]; rfl, ?_⟩
  rw [hload]
  unfold masterIndexFind
  have hmap : ∀ (o : Option (ChunkId × (BundleId × Nat))),
      (o.map (fun entry => entry.2)).isSome = o.isSome := by
    intro o; cases o <;> rfl
  rw [hmap, List.find?_isSome]
  constructor
  · rintro ⟨entry, hmem, hc⟩
    rw [List.mem_reverse, mem_flatIndexEntries] at hmem
    obtain ⟨file, hfile, hentry⟩ := hmem
    rw [mem_indexFileEntries] at hentry
    obtain ⟨bundleEntry, hbe, hb, record, hrec, hentry⟩ := hentry
    refine ⟨file, hfile, bundleEntry, hbe, hb, record, hrec, ?_⟩
    subst hentry
    simpa using hc
  · rintro ⟨file, hfile, bundleEntry, hbe, hb, record, hrec, hc⟩
    refine ⟨(record.1, (bundleEntry.1, record.2)), ?_, by simpa using hc⟩
    rw [List.mem_reverse, mem_flatIndexEntries]
    exact ⟨file, hfile, (mem_indexFileEntries bundleIds file _).mpr
      ⟨bundleEntry, hbe, hb, record, hrec, rfl⟩⟩

/-! ## gc-indexes (src/convert/gcindexes.rs)

`gc_indexes` first collects `backup_chunk_ids`, the set of chunk ids
reachable from any backup (`collect_chunks_from_backup`), then processes
every index file: if no bundle entry of the file has any chunk record
outside the reachable set, the file is skipped (left unchanged); otherwise
the file is rewritten: bundle entries with no reachable record are dropped
whole, the remaining entries keep their bundle header and only their
reachable records, the original file is deleted, and a replacement is
written only when at least one entry survives.  `reachable` embeds
`backup_chunk_ids`; a file is embedded as in the index-load section. -/

def recordReachable (reachable : List ChunkId) (record : ChunkId × Nat) : Bool :=
  decide (record.1 ∈ reachable)

def bundleHasUnreachable (reachable : List ChunkId) (records : List (ChunkId × Nat)) : Bool :=
  records.any (fun record => ! recordReachable reachable record)

def bundleHasReachable (reachable : List ChunkId) (records : List (ChunkId × Nat)) : Bool :=
  records.any (recordReachable reachable)

/-- The `new_index_entries` built by the rewrite loop. -/
def gcRewriteEntries (reachable : List ChunkId) (file : IndexFile) : IndexFile :=
  file.filterMap (fun bundleEntry =>
    if ! bundleHasReachable reachable bundleEntry.2 then
      none
    else
      some (bundleEntry.1, bundleEntry.2.filter (recordReachable reachable)))

inductive GcIndexResult where
  | unchanged
  | rewritten (newEntries : IndexFile)
  | deleted
deriving DecidableEq

/-- What `gc_indexes` does to one index file. -/
def gcIndexFile (reachable : List ChunkId) (file : IndexFile) : GcIndexResult :=
  if ! file.any (fun bundleEntry => bundleHasUnreachable reachable bundleEntry.2) then
    GcIndexResult.unchanged
  else if (gcRewriteEntries reachable file).isEmpty then
    GcIndexResult.deleted
  else
    GcIndexResult.rewritten (gcRewriteEntries reachable file)

/-- The index file present after the run (`none` when deleted). -/
def gcIndexContent (reachable : List ChunkId) (file : IndexFile) : Option IndexFile :=
  match gcIndexFile reachable file with
  | GcIndexResult.unchanged => some file
  | GcIndexResult.rewritten newEntries => some newEntries
  | GcIndexResult.deleted => none

/-- The whole set of index files after a gc-indexes run, in input order. -/
def gcIndexes (reachable : List ChunkId) (files : List IndexFile) : List IndexFile :=
  files.filterMap (gcIndexContent reachable)

lemma find?_eq_head?_filter {α : Type} (p : α → Bool) (l : List α) :
    l.find? p = (l.filter p).head? := by
  induction l with
  | nil => rfl
  | cons x l ih =>
      cases h : p x
      · rw [List.find?_cons_of_neg _ (by simp [h]), List.filter_cons_of_neg (by simp [h]), ih]
      · rw [List.find?_cons_of_pos _ h, List.filter_cons_of_pos h, List.head?_cons]

lemma filter_filter_of_imp {α : Type} (p q : α → Bool) (l : List α)
    (h : ∀ a, p a = true → q a = true) :
    (l.filter q).filter p = l.filter p := by
  induction l with
  | nil => rfl
  | cons x l ih =>
      by_cases hq : q x
      · simp [List.filter_cons, hq, ih]
      · have hp : p x = false := by
          cases hpx : p x
          · rfl
          · exact absurd (h x hpx) (by simp [hq])
        simp [List.filter_cons, hq, hp, ih]

lemma indexFileEntries_cons (bundleIds : List BundleId)
    (bundleEntry : BundleId × List (ChunkId × Nat)) (file : IndexFile) :
    indexFileEntries bundleIds (bundleEntry :: file) =
      (if bundleEntry.1 ∈ bundleIds then
        bundleEntry.2.map (fun record => (record.1, (bundleEntry.1, record.2)))
      else []) ++ indexFileEntries bundleIds file := by
  simp [indexFileEntries]

lemma mapped_filter_reachable (reachable : List ChunkId) (bundleId : BundleId)
    (records : List (ChunkId × Nat)) :
    (records.map (fun record => (record.1, (bundleId, record.2)))).filter
        (fun entry => decide (entry.1 ∈ reachable)) =
      (records.filter (recordReachable reachable)).map
        (fun record => (record.1, (bundleId, record.2))) := by
  induction records with
  | nil => rfl
  | cons record records ih =>
      by_cases h : record.1 ∈ reachable <;>
        simp [List.filter_cons, recordReachable, h, ih]

lemma gcRewriteEntries_entries (bundleIds reachable : List (List Nat)) (file : IndexFile) :
    indexFileEntries bundleIds (gcRewriteEntries reachable file) =
      (indexFileEntries bundleIds file).filter
        (fun entry => decide (entry.1 ∈ reachable)) := by
  induction file with
  | nil => rfl
  | cons bundleEntry file ih =>
      rw [gcRewriteEntries, List.filterMap_cons]
      by_cases hreach : bundleHasReachable reachable bundleEntry.2
      · rw [if_neg (by simp [hreach])]
        rw [indexFileEntries_cons, indexFileEntries_cons, List.filter_append]
        rw [show gcRewriteEntries reachable file = file.filterMap _ from rfl] at ih
        rw [ih]
        congr 1
        by_cases hmem : bundleEntry.1 ∈ bundleIds
        · simp only [hmem, if_pos, mapped_filter_reachable]
        · simp [hmem]
      · rw [if_pos (by simp [hreach])]
        rw [indexFileEntries_cons, List.filter_append]
        rw [show gcRewriteEntries reachable file = file.filterMap _ from rfl] at ih
        rw [ih]
        have hempty : (if bundleEntry.1 ∈ bundleIds then
            bundleEntry.2.map (fun record => (record.1, (bundleEntry.1, record.2)))
          else []).filter (fun entry => decide (entry.1 ∈ reachable)) = [] := by
          by_cases hmem : bundleEntry.1 ∈ bundleIds
          · rw [if_pos hmem, mapped_filter_reachable]
            have : bundleEntry.2.filter (recordReachable reachable) = [] := by
              rw [List.filter_eq_nil_iff]
              intro record hrec
              have := (List.any_eq_false).mp (Bool.eq_false_iff.mpr
                (fun h => hreach h)) record hrec
              simpa [recordReachable] using this
            rw [this]; rfl
          · simp [hmem]
        rw [hempty, List.nil_append]

lemma gcIndexFile_unchanged_iff (reachable : List ChunkId) (file : IndexFile) :
    gcIndexFile reachable file = GcIndexResult.unchanged ↔
      ∀ bundleEntry ∈ file, ∀ record ∈ bundleEntry.2, record.1 ∈ reachable := by
  have hmain : gcIndexFile reachable file = GcIndexResult.unchanged ↔
      file.any (fun bundleEntry => bundleHasUnreachable reachable bundleEntry.2) = false := by
    unfold gcIndexFile
    by_cases h : file.any (fun bundleEntry => bundleHasUnreachable reachable bundleEntry.2)
    · rw [if_neg (by simp [h])]
      constructor
      · intro hcontra
        split at hcontra <;> simp_all
      · intro hfalse
        rw [hfalse] at h
        simp at h
    · rw [if_pos (by simp [Bool.eq_false_iff.mpr h])]
      simp [Bool.eq_false_iff.mpr h]
  rw [hmain, List.any_eq_false]
  constructor
  · intro h bundleEntry hbe record hrec
    have := h bundleEntry hbe
    simp only [bundleHasUnreachable, List.any_eq_true, not_exists, not_and] at this
    have := this record
    simp only [recordReachable, Bool.not_eq_true'] at this
    by_contra hcontra
    exact absurd (this hrec) (by simpa using hcontra)
  · intro h bundleEntry hbe
    simp only [bundleHasUnreachable, List.any_eq_true, not_exists, not_and]
    intro record hrec
    simp [recordReachable, h bundleEntry hbe record hrec]

lemma gcRewriteEntries_no_empty_bundle (reachable : List ChunkId) (file : IndexFile) :
    ∀ bundleEntry ∈ gcRewriteEntries reachable file, bundleEntry.2 ≠ [] := by
  intro bundleEntry hmem
  unfold gcRewriteEntries at hmem
  rw [List.mem_filterMap] at hmem
  obtain ⟨orig, _, heq⟩ := hmem
  by_cases hreach : bundleHasReachable reachable orig.2
  · rw [if_neg (by simp [hreach])] at heq
    obtain ⟨record, hrec, hr⟩ := List.any_eq_true.mp hreach
    cases heq
    intro hnil
    have hnil2 : List.filter (recordReachable reachable) orig.2 = [] := hnil
    have hmemf : record ∈ List.filter (recordReachable reachable) orig.2 :=
      List.mem_filter.mpr ⟨hrec, hr⟩
    rw [hnil2] at hmemf
    exact absurd hmemf (List.not_mem_nil record)
  · rw [if_pos (by simp [hreach])] at heq
    simp at heq

lemma gcIndexFile_rewritten_eq (reachable : List ChunkId) (file : IndexFile)
    (newEntries : IndexFile)
    (h : gcIndexFile reachable file = GcIndexResult.rewritten newEntries) :
    newEntries = gcRewriteEntries reachable file := by
  unfold gcIndexFile at h
  split at h
  · simp at h
  · split at h
    · simp at h
    · cases h
      rfl

lemma gcIndexContent_entries (bundleIds reachable : List (List Nat)) (file : IndexFile) :
    indexFileEntries bundleIds ((gcIndexContent reachable file).getD []) =
      (indexFileEntries bundleIds file).filter
        (fun entry => decide (entry.1 ∈ reachable)) := by
  unfold gcIndexContent
  cases hgc : gcIndexFile reachable file with
  | unchanged =>
      have hall := (gcIndexFile_unchanged_iff reachable file).mp hgc
      have : (indexFileEntries bundleIds file).filter
          (fun entry => decide (entry.1 ∈ reachable)) = indexFileEntries bundleIds file := by
        rw [List.filter_eq_self]
        intro entry hentry
        rw [mem_indexFileEntries] at hentry
        obtain ⟨bundleEntry, hbe, _, record, hrec, hentry⟩ := hentry
        subst hentry
        simpa using hall bundleEntry hbe record hrec
      rw [this]
      rfl
  | rewritten newEntries =>
      have := gcIndexFile_rewritten_eq reachable file newEntries hgc
      subst this
      exact gcRewriteEntries_entries bundleIds reachable file
  | deleted =>
      have hempty : gcRewriteEntries reachable file = [] := by
        unfold gcIndexFile at hgc
        split at hgc
        · simp at hgc
        · split at hgc
          · simpa [List.isEmpty_iff] using ‹(gcRewriteEntries reachable file).isEmpty = true›
          · simp at hgc
      have := gcRewriteEntries_entries bundleIds reachable file
      rw [hempty] at this
      simpa [indexFileEntries] using this.symm

lemma flatIndexEntries_map_ok (bundleIds : List BundleId) (files : List IndexFile) :
    flatIndexEntries bundleIds (files.map Except.ok) =
      files.flatMap (indexFileEntries bundleIds) := by
  induction files with
  | nil => rfl
  | cons file files ih =>
      simp only [flatIndexEntries, List.map_cons, List.flatMap_cons] at *
      rw [ih]
      rfl

lemma flatIndexEntries_gcIndexes (bundleIds reachable : List (List Nat))
    (files : List IndexFile) :
    flatIndexEntries bundleIds ((gcIndexes reachable files).map Except.ok) =
      files.flatMap
        (fun file => indexFileEntries bundleIds ((gcIndexContent reachable file).getD [])) := by
  induction files with
  | nil => rfl
  | cons file files ih =>
      unfold gcIndexes at *
      rw [List.filterMap_cons]
      cases hgc : gcIndexContent reachable file with
      | none =>
          rw [List.flatMap_cons, ih]
          simp [hgc, indexFileEntries]
      | some newFile =>
          rw [List.flatMap_cons]
          simp only [List.map_cons, flatIndexEntries, List.flatMap_cons] at *
          rw [ih]
          simp [hgc, indexLoadResultEntries]

lemma gcIndexes_filter_chunk (bundleIds reachable : List (List Nat))
    (files : List IndexFile) (chunkId : ChunkId) (hc : chunkId ∈ reachable) :
    (flatIndexEntries bundleIds ((gcIndexes reachable files).map Except.ok)).filter
        (fun entry => decide (entry.1 = chunkId)) =
      (flatIndexEntries bundleIds (files.map Except.ok)).filter
        (fun entry => decide (entry.1 = chunkId)) := by
  rw [flatIndexEntries_gcIndexes, flatIndexEntries_map_ok]
  induction files with
  | nil => rfl
  | cons file files ih =>
      rw [List.flatMap_cons, List.flatMap_cons, List.filter_append, List.filter_append, ih]
      congr 1
      rw [gcIndexContent_entries]
      exact filter_filter_of_imp _ _ _ (fun entry hentry => by
        have : entry.1 = chunkId := by simpa using hentry
        simp [this, hc])

/-- C4: for every index file processed by gc-indexes, the file is left
unchanged exactly when all its chunk records are reachable; the surviving
index content is exactly the reachable records, each keeping its original
bundle id and size; a rewritten index contains no bundle entry with zero
surviving chunks; and for every reachable chunk the master index built from
the post-run index files agrees with the pre-run master index (same bundle
id and size). -/
theorem gcIndexes_preserves_reachable (reachable bundleIds : List (List Nat))
    (file : IndexFile) (files : List IndexFile) (chunkId : ChunkId) :
    (gcIndexFile reachable file = GcIndexResult.unchanged ↔
      ∀ bundleEntry ∈ file, ∀ record ∈ bundleEntry.2, record.1 ∈ reachable) ∧
    (indexFileEntries bundleIds ((gcIndexContent reachable file).getD []) =
      (indexFileEntries bundleIds file).filter
        (fun entry => decide (entry.1 ∈ reachable))) ∧
    (∀ newEntries, gcIndexFile reachable file = GcIndexResult.rewritten newEntries →
      ∀ bundleEntry ∈ newEntries, bundleEntry.2 ≠ []) ∧
    (chunkId ∈ reachable →
      masterIndexFind
          (loadIndexesReal bundleIds ((gcIndexes reachable files).map Except.ok)) chunkId =
        masterIndexFind (loadIndexesReal bundleIds (files.map Except.ok)) chunkId) := by
  refine ⟨gcIndexFile_unchanged_iff reachable file,
    gcIndexContent_entries bundleIds reachable file, ?_, ?_⟩
  · intro newEntries hnew
    rw [gcIndexFile_rewritten_eq reachable file newEntries hnew]
    exact gcRewriteEntries_no_empty_bundle reachable file
  · intro hc
    rw [loadIndexesReal_eq, loadIndexesReal_eq]
    unfold masterIndexFind
    rw [find?_eq_head?_filter, find?_eq_head?_filter,
      List.filter_reverse, List.filter_reverse,
      gcIndexes_filter_chunk bundleIds reachable files chunkId hc]

/-- C4 witness: chunk 7 is reachable, chunk 8 is not.  A fully reachable
file is classified unchanged; the surviving content equation evaluates on a
concrete file; a rewritten file keeps its non-empty bundle entry; and the
reachable chunk keeps its mapping across the run. -/
theorem gcIndexes_preserves_reachable_witness :
    gcIndexFile [[7]] [([1], [([7], 10)])] = GcIndexResult.unchanged ∧
    (indexFileEntries [[1]] ((gcIndexContent [[7]] [([1], [([7], 10)])]).getD []) =
      (indexFileEntries [[1]] [([1], [([7], 10)])]).filter
        (fun entry => decide (entry.1 ∈ [[7]]))) ∧
    ((([2] : BundleId), [(([7] : ChunkId), 10)]).2 ≠ []) ∧
    masterIndexFind
        (loadIndexesReal [[1], [2]]
          ((gcIndexes [[7]] [[([1], [([7], 10)])], [([2], [([8], 11)])]]).map Except.ok))
        [7] =
      masterIndexFind
        (loadIndexesReal [[1], [2]]
          ([[([1], [([7], 10)])], [([2], [([8], 11)])]].map Except.ok))
        [7] :=
  have h1 := gcIndexes_preserves_reachable [[7]] [[1], [2]] [([1], [([7], 10)])]
    [[([1], [([7], 10)])], [([2], [([8], 11)])]] [7]
  have h3 := gcIndexes_preserves_reachable [[7]] [[1], [2]]
    [([2], [([7], 10), ([8], 11)])]
    [[([1], [([7], 10)])], [([2], [([8], 11)])]] [7]
  ⟨h1.1.mpr (by decide), h1.2.1,
    h3.2.2.1 [([2], [([7], 10)])] rfl ([2], [([7], 10)]) (by decide),
    h1.2.2.2 (by decide)⟩

/-! ## gc-bundles classification (src/convert/gc_bundles.rs, read_bundles_metadata)

`gc_bundles` loads `all_index_entries : HashSet <(BundleId, ChunkId)>` from
the index files, then walks the bundles in scan order keeping one global
`seen_chunk_ids` set.  For each bundle it reads only the info header (the
chunk id list) and counts, per chunk, `num_to_keep` when the (bundle, chunk)
pair is indexed AND the chunk id has not been seen yet (inserting it into
the seen set), `num_to_reap` otherwise.  A bundle with `num_to_keep == 0`
goes on the delete list, one with `num_to_reap > 0` on the compact list, and
an untouched bundle contributes all its chunk ids to `other_chunks_seen`.
A bundle is embedded as its bundle id and the chunk ids of its info record
in order. -/

structure GcBundlesClassification where
  bundlesToCompact : List BundleId
  bundlesToDelete : List BundleId
  otherChunksSeen : List ChunkId
deriving DecidableEq

/-- The per-chunk counting loop of `read_bundles_metadata`:
returns (num_to_keep, num_to_reap, seen_chunk_ids afterwards). -/
def bundleChunkCounts (allIndexEntries : List (BundleId × ChunkId)) (bundleId : BundleId) :
    List ChunkId → List ChunkId → Nat × Nat × List ChunkId
  | [], seen => (0, 0, seen)
  | chunkId :: rest, seen =>
      if (bundleId, chunkId) ∈ allIndexEntries ∧ chunkId ∉ seen then
        let tail := bundleChunkCounts allIndexEntries bundleId rest (chunkId :: seen)
        (tail.1 + 1, tail.2.1, tail.2.2)
      else
        let tail := bundleChunkCounts allIndexEntries bundleId rest seen
        (tail.1, tail.2.1 + 1, tail.2.2)

/-- One iteration of the bundle loop of `read_bundles_metadata`. -/
def readBundlesMetadataStep (allIndexEntries : List (BundleId × ChunkId))
    (acc : GcBundlesClassification × List ChunkId) (bundle : BundleId × List ChunkId) :
    GcBundlesClassification × List ChunkId :=
  let counts := bundleChunkCounts allIndexEntries bundle.1 bundle.2 acc.2
  if counts.1 = 0 then
    ({ acc.1 with bundlesToDelete := acc.1.bundlesToDelete ++ [bundle.1] }, counts.2.2)
  else if 0 < counts.2.1 then
    ({ acc.1 with bundlesToCompact := acc.1.bundlesToCompact ++ [bundle.1] }, counts.2.2)
  else
    ({ acc.1 with otherChunksSeen := acc.1.otherChunksSeen ++ bundle.2 }, counts.2.2)

/-- Embeds `read_bundles_metadata` over the scanned bundles, starting from empty
lists and an empty seen set. -/
def readBundlesMetadata (allIndexEntries : List (BundleId × ChunkId))
    (bundles : List (BundleId × List ChunkId)) : GcBundlesClassification :=
  (bundles.foldl (readBundlesMetadataStep allIndexEntries) (⟨[], [], []⟩, [])).1

/-- C5 counterexample: bundles `[1]` and `[2]` each hold the single chunk
`[7]`, and the index references the chunk under both bundle ids, so every
chunk of each bundle is referenced under its own bundle id and the two
bundles share a chunk id.  The claim says both bundles are classified keep;
the code classifies bundle `[2]` delete, because the classification loop
already applies the global seen-chunk dedup. -/
theorem gcBundles_shared_chunk_counterexample :
    (∀ chunkId ∈ [([7] : ChunkId)], (([1] : BundleId), chunkId) ∈
      [(([1] : BundleId), ([7] : ChunkId)), ([2], [7])]) ∧
    (∀ chunkId ∈ [([7] : ChunkId)], (([2] : BundleId), chunkId) ∈
      [(([1] : BundleId), ([7] : ChunkId)), ([2], [7])]) ∧
    readBundlesMetadata [(([1] : BundleId), ([7] : ChunkId)), ([2], [7])]
        [([1], [[7]]), ([2], [[7]])] =
      ⟨[], [[2]], [[7]]⟩ := by
  refine ⟨by decide, by decide, by rfl⟩

lemma bundleChunkCounts_all_fresh (allIndexEntries : List (BundleId × ChunkId))
    (bundleId : BundleId) (chunks seen : List ChunkId)
    (hall : ∀ chunkId ∈ chunks, (bundleId, chunkId) ∈ allIndexEntries)
    (hfresh : ∀ chunkId ∈ chunks, chunkId ∉ seen)
    (hnd : chunks.Nodup) :
    bundleChunkCounts allIndexEntries bundleId chunks seen =
      (chunks.length, 0, chunks.reverse ++ seen) := by
  induction chunks generalizing seen with
  | nil => simp [bundleChunkCounts]
  | cons chunkId rest ih =>
      rw [bundleChunkCounts,
        if_pos ⟨hall chunkId (by simp), hfresh chunkId (by simp)⟩]
      have hrest := ih (chunkId :: seen)
        (fun c hc => hall c (by simp [hc]))
        (fun c hc => by
          intro hmem
          rcases List.mem_cons.mp hmem with h | h
          · exact absurd hc (by subst h; exact (List.nodup_cons.mp hnd).1)
          · exact absurd h (hfresh c (by simp [hc])))
        (List.nodup_cons.mp hnd).2
      rw [hrest]
      simp

lemma bundleChunkCounts_all_seen (allIndexEntries : List (BundleId × ChunkId))
    (bundleId : BundleId) (chunks seen : List ChunkId)
    (hseen : ∀ chunkId ∈ chunks, chunkId ∈ seen) :
    bundleChunkCounts allIndexEntries bundleId chunks seen = (0, chunks.length, seen) := by
  induction chunks with
  | nil => simp [bundleChunkCounts]
  | cons chunkId rest ih =>
      rw [bundleChunkCounts,
        if_neg (fun h => h.2 (hseen chunkId (by simp)))]
      rw [ih (fun c hc => hseen c (by simp [hc]))]
      simp

/-- C5 amended: the global seen-chunk dedup applies already during
classification, not only to rewrite candidates: when two scanned bundles
each have every chunk referenced by the index under their own bundle id but
the chunks of the second bundle were all already seen in the first, the first
bundle is classified keep (neither deleted nor compacted, its chunks going
to `other_chunks_seen`) while the second bundle is classified delete. -/
theorem gcBundles_dedup_in_classification
    (allIndexEntries : List (BundleId × ChunkId)) (b1 b2 : BundleId)
    (l1 l2 : List ChunkId)
    (h1 : ∀ chunkId ∈ l1, (b1, chunkId) ∈ allIndexEntries)
    (hnd : l1.Nodup)
    (h2 : ∀ chunkId ∈ l2, (b2, chunkId) ∈ allIndexEntries)
    (hne : l2 ≠ [])
    (hsub : ∀ chunkId ∈ l2, chunkId ∈ l1) :
    readBundlesMetadata allIndexEntries [(b1, l1), (b2, l2)] = ⟨[], [b2], l1⟩ := by
  have hl1ne : l1 ≠ [] := by
    obtain ⟨c, hc⟩ := List.exists_mem_of_ne_nil l2 hne
    intro hnil
    exact absurd (hsub c hc) (by simp [hnil])
  have hcounts1 := bundleChunkCounts_all_fresh allIndexEntries b1 l1 [] h1
    (fun c _ => List.not_mem_nil c) hnd
  have hstep1 : readBundlesMetadataStep allIndexEntries (⟨[], [], []⟩, []) (b1, l1) =
      (⟨[], [], l1⟩, l1.reverse) := by
    unfold readBundlesMetadataStep
    rw [hcounts1]
    rw [if_neg (by simpa [List.length_eq_zero] using hl1ne)]
    rw [if_neg (by simp)]
    simp
  have hcounts2 := bundleChunkCounts_all_seen allIndexEntries b2 l2 l1.reverse
    (fun c hc => List.mem_reverse.mpr (hsub c hc))
  have hstep2 : readBundlesMetadataStep allIndexEntries (⟨[], [], l1⟩, l1.reverse) (b2, l2) =
      (⟨[], [b2], l1⟩, l1.reverse) := by
    unfold readBundlesMetadataStep
    rw [hcounts2]
    rw [if_pos rfl]
    simp
  unfold readBundlesMetadata
  rw [List.foldl_cons, hstep1, List.foldl_cons, hstep2, List.foldl_nil]

/-- C5 amended witness: the concrete two-bundle repository of the
counterexample, settled through the amended theorem. -/
theorem gcBundles_dedup_in_classification_witness :
    readBundlesMetadata [(([1] : BundleId), ([7] : ChunkId)), ([2], [7])]
        [([1], [[7]]), ([2], [[7]])] = ⟨[], [[2]], [[7]]⟩ :=
  gcBundles_dedup_in_classification
    [(([1] : BundleId), ([7] : ChunkId)), ([2], [7])] [1] [2] [[7]] [[7]]
    (by decide) (by decide) (by decide) (by decide) (by decide)

/-! ## balance-indexes (src/convert/balanceindexes.rs, src/convert/utils.rs)

`balance_indexes` streams every entry of every existing index file into
`entries_buffer`, calling `flush_index_entries` (which writes one new index
file with a random name and clears the buffer) whenever the buffer length
reaches `bundles_per_index`; every old index file is scheduled for deletion;
a non-empty leftover buffer is flushed once more before commit.  An index
entry is one (bundle header, bundle info) pair, embedded as in the
index-load section; the output is the list of written index files in
creation order. -/

abbrev RawIndexEntry := BundleId × List (ChunkId × Nat)

/-- The inner loop over the entries of one index file: push each entry,
flush at `bundles_per_index`.  Returns (files written so far, buffer). -/
def balanceLoop (bundlesPerIndex : Nat) :
    List RawIndexEntry → List RawIndexEntry → List (List RawIndexEntry) →
    List (List RawIndexEntry) × List RawIndexEntry
  | [], buffer, out => (out, buffer)
  | entry :: rest, buffer, out =>
      if (buffer ++ [entry]).length = bundlesPerIndex then
        balanceLoop bundlesPerIndex rest [] (out ++ [buffer ++ [entry]])
      else
        balanceLoop bundlesPerIndex rest (buffer ++ [entry]) out

/-- Embeds `balance_indexes`: loop over the old index files, then flush any
non-empty leftover buffer. -/
def balanceIndexes (bundlesPerIndex : Nat) (files : List (List RawIndexEntry)) :
    List (List RawIndexEntry) :=
  let final := files.foldl
    (fun st file => balanceLoop bundlesPerIndex file st.2 st.1) ([], [])
  if final.2.isEmpty then final.1 else final.1 ++ [final.2]

/-- The logical index content: all (bundle id, chunk id, size) triples. -/
def balanceTriples (files : List (List RawIndexEntry)) :
    List (BundleId × ChunkId × Nat) :=
  files.flatten.flatMap
    (fun entry => entry.2.map (fun record => (entry.1, record.1, record.2)))

lemma balanceLoop_flatten (bundlesPerIndex : Nat) (entries : List RawIndexEntry) :
    ∀ buffer out,
      (balanceLoop bundlesPerIndex entries buffer out).1.flatten ++
          (balanceLoop bundlesPerIndex entries buffer out).2 =
        out.flatten ++ buffer ++ entries := by
  induction entries with
  | nil => intro buffer out; simp [balanceLoop]
  | cons entry rest ih =>
      intro buffer out
      rw [balanceLoop]
      by_cases h : (buffer ++ [entry]).length = bundlesPerIndex
      · rw [if_pos h, ih]
        simp [List.flatten_append, List.append_assoc]
      · rw [if_neg h, ih]
        simp [List.append_assoc]

lemma balanceFold_flatten (bundlesPerIndex : Nat) (files : List (List RawIndexEntry)) :
    ∀ buffer out,
      (files.foldl (fun st file => balanceLoop bundlesPerIndex file st.2 st.1)
          (out, buffer)).1.flatten ++
        (files.foldl (fun st file => balanceLoop bundlesPerIndex file st.2 st.1)
          (out, buffer)).2 =
      out.flatten ++ buffer ++ files.flatten := by
  induction files with
  | nil => intro buffer out; simp
  | cons file files ih =>
      intro buffer out
      rw [List.foldl_cons]
      have hstep : balanceLoop bundlesPerIndex file buffer out =
          ((balanceLoop bundlesPerIndex file buffer out).1,
            (balanceLoop bundlesPerIndex file buffer out).2) := rfl
      rw [hstep, ih]
      rw [balanceLoop_flatten]
      simp [List.append_assoc]

lemma balanceIndexes_flatten (bundlesPerIndex : Nat) (files : List (List RawIndexEntry)) :
    (balanceIndexes bundlesPerIndex files).flatten = files.flatten := by
  unfold balanceIndexes
  have hfold := balanceFold_flatten bundlesPerIndex files [] []
  by_cases h : (files.foldl (fun st file => balanceLoop bundlesPerIndex file st.2 st.1)
      ([], [])).2.isEmpty
  · rw [if_pos h]
    rw [List.isEmpty_iff] at h
    rw [h] at hfold
    simpa using hfold
  · rw [if_neg h]
    rw [List.flatten_append]
    simpa using hfold

lemma balanceLoop_sizes (bundlesPerIndex : Nat) (entries : List RawIndexEntry) :
    ∀ buffer out, buffer.length < bundlesPerIndex →
      (∀ f ∈ out, f.length = bundlesPerIndex) →
      (∀ f ∈ (balanceLoop bundlesPerIndex entries buffer out).1,
          f.length = bundlesPerIndex) ∧
        (balanceLoop bundlesPerIndex entries buffer out).2.length < bundlesPerIndex := by
  induction entries with
  | nil =>
      intro buffer out hb hout
      exact ⟨hout, hb⟩
  | cons entry rest ih =>
      intro buffer out hb hout
      rw [balanceLoop]
      by_cases h : (buffer ++ [entry]).length = bundlesPerIndex
      · rw [if_pos h]
        refine ih [] (out ++ [buffer ++ [entry]])
          (by rw [List.length_nil, ← h, List.length_append, List.length_singleton]; omega) ?_
        intro f hf
        rcases List.mem_append.mp hf with hf | hf
        · exact hout f hf
        · rw [List.mem_singleton.mp hf]
          exact h
      · rw [if_neg h]
        refine ih (buffer ++ [entry]) out ?_ hout
        rw [List.length_append, List.length_singleton]
        rw [List.length_append, List.length_singleton] at h
        omega

lemma balanceFold_sizes (bundlesPerIndex : Nat) (files : List (List RawIndexEntry)) :
    ∀ buffer out, buffer.length < bundlesPerIndex →
      (∀ f ∈ out, f.length = bundlesPerIndex) →
      (∀ f ∈ (files.foldl (fun st file => balanceLoop bundlesPerIndex file st.2 st.1)
          (out, buffer)).1, f.length = bundlesPerIndex) ∧
        (files.foldl (fun st file => balanceLoop bundlesPerIndex file st.2 st.1)
          (out, buffer)).2.length < bundlesPerIndex := by
  induction files with
  | nil =>
      intro buffer out hb hout
      exact ⟨hout, hb⟩
  | cons file files ih =>
      intro buffer out hb hout
      rw [List.foldl_cons]
      obtain ⟨hout2, hb2⟩ := balanceLoop_sizes bundlesPerIndex file buffer out hb hout
      exact ih _ _ hb2 hout2

/-- C8: balance-indexes emits the stream of all existing index entries into
new files of exactly `bundles_per_index` entries, with one final flush of
the non-empty leftover (so only the last written file may be smaller, and no
written file is empty); the logical index, the concatenation of all entries,
is preserved, and therefore running balance-indexes twice with the same
`bundles_per_index` produces exactly the (bundle id, chunk id, size) triples
of running it once. -/
theorem balanceIndexes_idempotent (bundlesPerIndex : Nat)
    (files : List (List RawIndexEntry)) (hpos : 0 < bundlesPerIndex) :
    balanceTriples (balanceIndexes bundlesPerIndex (balanceIndexes bundlesPerIndex files)) =
      balanceTriples (balanceIndexes bundlesPerIndex files) ∧
    (balanceIndexes bundlesPerIndex files).flatten = files.flatten ∧
    (∀ f ∈ (balanceIndexes bundlesPerIndex files).dropLast,
        f.length = bundlesPerIndex) ∧
    (∀ f ∈ balanceIndexes bundlesPerIndex files, f ≠ []) := by
  have hflat := balanceIndexes_flatten bundlesPerIndex files
  have hsizes := balanceFold_sizes bundlesPerIndex files [] []
    (by simpa using hpos) (by intro f hf; simp at hf)
  refine ⟨?_, hflat, ?_, ?_⟩
  · unfold balanceTriples
    rw [balanceIndexes_flatten]
  · intro f hf
    unfold balanceIndexes at hf
    by_cases h : (files.foldl (fun st file => balanceLoop bundlesPerIndex file st.2 st.1)
        ([], [])).2.isEmpty
    · rw [if_pos h] at hf
      exact hsizes.1 f (List.dropLast_subset _ hf)
    · rw [if_neg h, List.dropLast_concat] at hf
      exact hsizes.1 f hf
  · intro f hf
    unfold balanceIndexes at hf
    by_cases h : (files.foldl (fun st file => balanceLoop bundlesPerIndex file st.2 st.1)
        ([], [])).2.isEmpty
    · rw [if_pos h] at hf
      have := hsizes.1 f hf
      intro hnil
      rw [hnil] at this
      simp at this
      omega
    · rw [if_neg h] at hf
      rcases List.mem_append.mp hf with hf | hf
      · have := hsizes.1 f hf
        intro hnil
        rw [hnil] at this
        simp at this
        omega
      · rw [List.mem_singleton.mp hf]
        intro hnil
        rw [hnil] at h
        simp at h

/-- C8 witness: three entries balanced two per index give the files
`[[e1, e2], [e3]]`; a second run reproduces the same logical index, the
non-final file has exactly two entries, and the flushed leftover is not
empty. -/
theorem balanceIndexes_idempotent_witness :
    balanceTriples (balanceIndexes 2 (balanceIndexes 2
        [[(([1] : BundleId), [(([7] : ChunkId), 10)])],
          [([2], [([8], 11)]), ([3], [([9], 12)])]])) =
      balanceTriples (balanceIndexes 2
        [[(([1] : BundleId), [(([7] : ChunkId), 10)])],
          [([2], [([8], 11)]), ([3], [([9], 12)])]]) ∧
    (balanceIndexes 2
        [[(([1] : BundleId), [(([7] : ChunkId), 10)])],
          [([2], [([8], 11)]), ([3], [([9], 12)])]]).flatten =
      [[(([1] : BundleId), [(([7] : ChunkId), 10)])],
        [([2], [([8], 11)]), ([3], [([9], 12)])]].flatten ∧
    ([(([1] : BundleId), [(([7] : ChunkId), 10)]), ([2], [([8], 11)])] :
        List RawIndexEntry).length = 2 ∧
    ([(([3] : BundleId), [(([9] : ChunkId), 12)])] : List RawIndexEntry) ≠ [] :=
  have h := balanceIndexes_idempotent 2
    [[(([1] : BundleId), [(([7] : ChunkId), 10)])],
      [([2], [([8], 11)]), ([3], [([9], 12)])]] (by decide)
  ⟨h.1, h.2.1,
    h.2.2.1 [([1], [([7], 10)]), ([2], [([8], 11)])] (by decide),
    h.2.2.2 [([3], [([9], 12)])] (by decide)⟩

/-! ## Atomic file writer (src/misc/atomic_file_writer.rs)

`AtomicFileWriter::new` opens `<root>/lock`, takes both locks, ensures
`<root>/tmp/` exists, and starts with empty `temp_files` and `delete_files`
lists.  `create (target_path)` makes a file named by 16 random ASCII
characters inside `tmp/` and records `(temp_name, target_path)`;
`delete (path)` only records the path.  Neither touches anything outside
`tmp/`; renames and unlinks happen in `commit` alone.  Dropping the state
unlinks each recorded temp file, removes the `tmp` directory (ignoring
failure, which occurs exactly when files remain inside), and closes the
lock file descriptor.

The filesystem is embedded as the lists of its regular-file paths and
directory paths relative to the repository root; a path is its component
list, so every staged file lives at `["tmp", name]`. -/

abbrev FsPath := List String

structure Fs where
  files : List FsPath
  dirs : List FsPath
deriving DecidableEq

def fsCreateFile (fs : Fs) (path : FsPath) : Fs :=
  { fs with files := if path ∈ fs.files then fs.files else path :: fs.files }

def fsRemoveFile (fs : Fs) (path : FsPath) : Fs :=
  { fs with files := fs.files.filter (fun p => decide (p ≠ path)) }

/-- Embeds `fs::remove_dir`: it succeeds only on an empty directory; the drop handler
ignores the failure, so a non-empty directory is left alone. -/
def fsRemoveDir (fs : Fs) (path : FsPath) : Fs :=
  if fs.files.any (fun p => decide (p.dropLast = path)) then
    fs
  else
    { fs with dirs := fs.dirs.filter (fun p => decide (p ≠ path)) }

structure AtomicFileWriterState where
  lockOpen : Bool
  tempFiles : List (String × FsPath)
  deleteFiles : List FsPath

/-- Embeds `rand::thread_rng ().gen_ascii_chars ().take (16).collect ()`. -/
def genTempName (rng : Nat → Char) : String :=
  String.mk ((List.range 16).map rng)

/-- One call against the writer before commit: `create` stages a temp file
under `tmp/`, `delete` only records the target. -/
inductive AfwOp where
  | create (rng : Nat → Char) (targetPath : FsPath)
  | delete (deletePath : FsPath)

def afwApply (state : AtomicFileWriterState) (fs : Fs) :
    AfwOp → AtomicFileWriterState × Fs
  | AfwOp.create rng targetPath =>
      ({ state with
          tempFiles := state.tempFiles ++ [(genTempName rng, targetPath)] },
        fsCreateFile fs ["tmp", genTempName rng])
  | AfwOp.delete deletePath =>
      ({ state with deleteFiles := state.deleteFiles ++ [deletePath] }, fs)

def afwInitial : AtomicFileWriterState :=
  { lockOpen := true, tempFiles := [], deleteFiles := [] }

def afwRun (state : AtomicFileWriterState) (fs : Fs) (ops : List AfwOp) :
    AtomicFileWriterState × Fs :=
  ops.foldl (fun acc op => afwApply acc.1 acc.2 op) (state, fs)

/-- Embeds `Drop for AtomicFileWriterState`: unlink every staged temp file, try to
remove `tmp/`, close the lock fd (the Bool is the lock-open flag after). -/
def afwDrop (state : AtomicFileWriterState) (fs : Fs) : Fs × Bool :=
  (fsRemoveDir
    (state.tempFiles.foldl (fun f tempFile => fsRemoveFile f ["tmp", tempFile.1]) fs)
    ["tmp"], false)

lemma genTempName_length (rng : Nat → Char) : (genTempName rng).length = 16 := by
  change ((List.range 16).map rng).length = 16
  simp

lemma afwApply_files_mem (state : AtomicFileWriterState) (fs : Fs) (op : AfwOp)
    (p : FsPath) (hp : p.head? ≠ some "tmp") :
    (p ∈ (afwApply state fs op).2.files ↔ p ∈ fs.files) := by
  cases op with
  | create rng targetPath =>
      show p ∈ (fsCreateFile fs ["tmp", genTempName rng]).files ↔ p ∈ fs.files
      unfold fsCreateFile
      by_cases hmem : ["tmp", genTempName rng] ∈ fs.files
      · rw [if_pos hmem]
      · rw [if_neg hmem]
        simp only [List.mem_cons]
        constructor
        · rintro (h | h)
          · subst h
            simp at hp
          · exact h
        · exact Or.inr
  | delete deletePath => exact Iff.rfl

lemma afwApply_dirs (state : AtomicFileWriterState) (fs : Fs) (op : AfwOp) :
    (afwApply state fs op).2.dirs = fs.dirs := by
  cases op with
  | create rng targetPath => rfl
  | delete deletePath => rfl

lemma afwApply_tempFiles (state : AtomicFileWriterState) (fs : Fs) (op : AfwOp) :
    ∀ tempFile ∈ (afwApply state fs op).1.tempFiles,
      tempFile ∈ state.tempFiles ∨ ∃ rng targetPath, tempFile = (genTempName rng, targetPath) := by
  cases op with
  | create rng targetPath =>
      intro tempFile h
      rcases List.mem_append.mp h with h | h
      · exact Or.inl h
      · exact Or.inr ⟨rng, targetPath, List.mem_singleton.mp h⟩
  | delete deletePath =>
      intro tempFile h
      exact Or.inl h

lemma afwRun_cons (state : AtomicFileWriterState) (fs : Fs) (op : AfwOp) (ops : List AfwOp) :
    afwRun state fs (op :: ops) =
      afwRun (afwApply state fs op).1 (afwApply state fs op).2 ops := rfl

lemma afwRun_files_mem (ops : List AfwOp) (p : FsPath) (hp : p.head? ≠ some "tmp") :
    ∀ (state : AtomicFileWriterState) (fs : Fs),
      (p ∈ (afwRun state fs ops).2.files ↔ p ∈ fs.files) := by
  induction ops with
  | nil => intro state fs; exact Iff.rfl
  | cons op ops ih =>
      intro state fs
      rw [afwRun_cons]
      exact (ih _ _).trans (afwApply_files_mem state fs op p hp)

lemma afwRun_dirs (ops : List AfwOp) :
    ∀ (state : AtomicFileWriterState) (fs : Fs),
      (afwRun state fs ops).2.dirs = fs.dirs := by
  induction ops with
  | nil => intro state fs; rfl
  | cons op ops ih =>
      intro state fs
      rw [afwRun_cons, ih]
      exact afwApply_dirs state fs op

lemma afwRun_tempFiles (ops : List AfwOp) :
    ∀ (state : AtomicFileWriterState) (fs : Fs),
      ∀ tempFile ∈ (afwRun state fs ops).1.tempFiles,
        tempFile ∈ state.tempFiles ∨
          ∃ rng targetPath, tempFile = (genTempName rng, targetPath) := by
  induction ops with
  | nil => intro state fs tempFile h; exact Or.inl h
  | cons op ops ih =>
      intro state fs tempFile h
      rw [afwRun_cons] at h
      rcases ih _ _ tempFile h with h2 | h2
      · exact afwApply_tempFiles state fs op tempFile h2
      · exact Or.inr h2

lemma removeAll_files_mem (tempFiles : List (String × FsPath)) :
    ∀ (fs : Fs) (q : FsPath),
      (q ∈ (tempFiles.foldl (fun f tempFile => fsRemoveFile f ["tmp", tempFile.1]) fs).files ↔
        (q ∈ fs.files ∧ ∀ tempFile ∈ tempFiles, q ≠ ["tmp", tempFile.1])) := by
  induction tempFiles with
  | nil =>
      intro fs q
      simp
  | cons tempFile tempFiles ih =>
      intro fs q
      rw [List.foldl_cons, ih]
      unfold fsRemoveFile
      simp only [List.mem_filter, decide_eq_true_eq]
      constructor
      · rintro ⟨⟨hq, hne⟩, hrest⟩
        refine ⟨hq, fun tempFile2 h => ?_⟩
        rcases List.mem_cons.mp h with h | h
        · subst h
          exact hne
        · exact hrest tempFile2 h
      · rintro ⟨hq, hall⟩
        exact ⟨⟨hq, hall tempFile (by simp)⟩, fun tempFile2 h => hall tempFile2 (by simp [h])⟩

lemma fsRemoveDir_files (fs : Fs) (path : FsPath) :
    (fsRemoveDir fs path).files = fs.files := by
  unfold fsRemoveDir
  split <;> rfl

/-- C6: before commit the transaction only creates files at
`["tmp", <16-character name>]`: file membership outside `tmp/`, in
particular anywhere under `bundles/`, `index/` or `backups/`, and the whole
directory tree are untouched by any sequence of `create`/`delete` calls.
Dropping the writer without commit removes every still-staged temp file,
removes the `tmp` directory (its contents being exactly the staged files),
and closes the lock file descriptor. -/
theorem atomicFileWriter_frame_rollback
    (ops : List AfwOp) (fs fsAtDrop : Fs) (p : FsPath)
    (state : AtomicFileWriterState)
    (hp : p.head? = some "bundles" ∨ p.head? = some "index" ∨ p.head? = some "backups")
    (hcover : ∀ q ∈ fsAtDrop.files, q.dropLast = ["tmp"] →
      ∃ tempFile ∈ state.tempFiles, q = ["tmp", tempFile.1]) :
    (p ∈ (afwRun afwInitial fs ops).2.files ↔ p ∈ fs.files) ∧
    (afwRun afwInitial fs ops).2.dirs = fs.dirs ∧
    (∀ tempFile ∈ (afwRun afwInitial fs ops).1.tempFiles, tempFile.1.length = 16) ∧
    (∀ tempFile ∈ state.tempFiles,
      ["tmp", tempFile.1] ∉ (afwDrop state fsAtDrop).1.files) ∧
    (afwDrop state fsAtDrop).2 = false ∧
    ["tmp"] ∉ (afwDrop state fsAtDrop).1.dirs := by
  have hpne : p.head? ≠ some "tmp" := by
    rcases hp with h | h | h <;> simp [h]
  refine ⟨afwRun_files_mem ops p hpne afwInitial fs, afwRun_dirs ops afwInitial fs,
    ?_, ?_, rfl, ?_⟩
  · intro tempFile h
    rcases afwRun_tempFiles ops afwInitial fs tempFile h with h2 | ⟨rng, targetPath, h2⟩
    · simp [afwInitial] at h2
    · rw [h2]
      exact genTempName_length rng
  · intro tempFile h
    unfold afwDrop
    rw [fsRemoveDir_files, removeAll_files_mem]
    rintro ⟨-, hall⟩
    exact absurd rfl (hall tempFile h)
  · unfold afwDrop fsRemoveDir
    rw [if_neg ?hnone]
    case hnone =>
      simp only [List.any_eq_true, not_exists, not_and]
      intro q hq
      rw [removeAll_files_mem] at hq
      simp only [decide_eq_true_eq]
      intro hdl
      obtain ⟨tempFile, htf, hq2⟩ := hcover q hq.1 hdl
      exact absurd hq2 (hq.2 tempFile htf)
    simp

/-- C6 witness: one create against `index/aa` and one recorded delete leave
`index/bb` in place and the directory tree unchanged; the staged name has 16
characters; dropping a writer with one staged file removes it, removes
`tmp/`, and closes the lock. -/
theorem atomicFileWriter_frame_rollback_witness :
    (["index", "bb"] ∈ (afwRun afwInitial
        ⟨[["index", "bb"]], [["tmp"], ["index"]]⟩
        [AfwOp.create (fun _ => Char.ofNat 97) ["index", "aa"],
          AfwOp.delete ["index", "bb"]]).2.files ↔
      ["index", "bb"] ∈ (⟨[["index", "bb"]], [["tmp"], ["index"]]⟩ : Fs).files) ∧
    (afwRun afwInitial ⟨[["index", "bb"]], [["tmp"], ["index"]]⟩
        [AfwOp.create (fun _ => Char.ofNat 97) ["index", "aa"],
          AfwOp.delete ["index", "bb"]]).2.dirs = [["tmp"], ["index"]] ∧
    (genTempName (fun _ => Char.ofNat 97)).length = 16 ∧
    ["tmp", "tt"] ∉ (afwDrop ⟨true, [("tt", ["index", "aa"])], []⟩
        ⟨[["tmp", "tt"], ["index", "bb"]], [["tmp"], ["index"]]⟩).1.files ∧
    (afwDrop ⟨true, [("tt", ["index", "aa"])], []⟩
        ⟨[["tmp", "tt"], ["index", "bb"]], [["tmp"], ["index"]]⟩).2 = false ∧
    ["tmp"] ∉ (afwDrop ⟨true, [("tt", ["index", "aa"])], []⟩
        ⟨[["tmp", "tt"], ["index", "bb"]], [["tmp"], ["index"]]⟩).1.dirs := by
  have h := atomicFileWriter_frame_rollback
    [AfwOp.create (fun _ => Char.ofNat 97) ["index", "aa"],
      AfwOp.delete ["index", "bb"]]
    ⟨[["index", "bb"]], [["tmp"], ["index"]]⟩
    ⟨[["tmp", "tt"], ["index", "bb"]], [["tmp"], ["index"]]⟩
    ["index", "bb"]
    ⟨true, [("tt", ["index", "aa"])], []⟩
    (Or.inr (Or.inl rfl))
    (by
      intro q hq hdl
      simp only [List.mem_cons, List.not_mem_nil, or_false] at hq
      rcases hq with h1 | h1
      · exact ⟨("tt", ["index", "aa"]), by simp, by rw [h1]⟩
      · rw [h1] at hdl
        simp at hdl)
  exact ⟨h.1, h.2.1, h.2.2.1 (genTempName (fun _ => Char.ofNat 97), ["index", "aa"])
      (by decide),
    h.2.2.2.1 ("tt", ["index", "aa"]) (by simp),
    h.2.2.2.2.1, h.2.2.2.2.2⟩

/-! ## Bundle load completion (src/zbackup/repo.rs, start_load_chunk_async,
start_loading_next_chunks)

Scheduler state under the repository mutex: `bundles_loading` maps an
in-flight bundle to its registered waiters (per chunk id, a number of
oneshot completions), `bundles_to_load` holds the queued waiters, and
`bundles_to_load_list` is the FIFO of queued bundle ids.

`start_load_chunk_async` spawns a task that reads the bundle and then, back
under the lock, runs the completion sequence embedded here as
`finishBundleLoad`: the crucial detail is the `?` operator on
`chunk_map_result` (repo.rs line 1417), which on a read error returns the
error from the spawned closure BEFORE the waiters are notified, before the
bundle is removed from `bundles_loading`, and before
`start_loading_next_chunks` runs.  On success every waiter receives its
chunk (or an "Expected to find chunk" error), the bundle is removed, and the
head of the queue is started: its first waiter of the first chunk receives
the new load, the remaining queued waiters are re-registered as waiters of
the new in-flight load, and all their outer futures complete.

`finishBundleLoad` returns `none` where the Rust code would panic on an
`unwrap`; otherwise `some` of (state afterwards, inner completions delivered
as (chunk id, result) per waiter, outer completions delivered as
(chunk id, waiter count), the value of the spawned future). -/

structure SchedulerState where
  bundlesLoading : List (BundleId × List (ChunkId × Nat))
  bundlesToLoad : List (BundleId × List (ChunkId × Nat))
  bundlesToLoadList : List BundleId
deriving DecidableEq

def startLoadingNextChunks (st : SchedulerState) :
    Option (SchedulerState × List (ChunkId × Nat)) :=
  match st.bundlesToLoadList with
  | [] => some (st, [])
  | nextBundleId :: restList =>
      match st.bundlesToLoad.find? (fun entry => entry.1 = nextBundleId) with
      | none => none
      | some entry =>
          match entry.2 with
          | [] => none
          | (firstChunkId, firstCount) :: otherChunks =>
              if firstCount = 0 then
                none
              else
                some ({
                  bundlesLoading := st.bundlesLoading ++
                    [(nextBundleId,
                      (if firstCount - 1 = 0 then []
                        else [(firstChunkId, firstCount - 1)]) ++ otherChunks)],
                  bundlesToLoad :=
                    st.bundlesToLoad.filter (fun entry => entry.1 ≠ nextBundleId),
                  bundlesToLoadList := restList },
                  (firstChunkId, firstCount) :: otherChunks)

def finishBundleLoad (st : SchedulerState) (bundleId : BundleId)
    (requestChunkId : ChunkId)
    (readResult : Except String (List (ChunkId × List Nat))) :
    Option (SchedulerState × List (ChunkId × Except String (List Nat)) ×
      List (ChunkId × Nat) × Except String (List Nat)) :=
  match readResult with
  | Except.error e => some (st, [], [], Except.error e)
  | Except.ok chunkList =>
      match st.bundlesLoading.find? (fun entry => entry.1 = bundleId) with
      | none => none
      | some entry =>
          let chunkLookup := fun chunkId =>
            match chunkList.find? (fun chunk => chunk.1 = chunkId) with
            | some chunk => Except.ok chunk.2
            | none => Except.error "Expected to find chunk in bundle"
          match startLoadingNextChunks { st with
              bundlesLoading :=
                st.bundlesLoading.filter (fun entry => entry.1 ≠ bundleId) } with
          | none => none
          | some (stNext, outerCompleted) =>
              some (stNext,
                entry.2.flatMap (fun waiter =>
                  List.replicate waiter.2 (waiter.1, chunkLookup waiter.1)),
                outerCompleted,
                chunkLookup requestChunkId)

/-- C2: evaluation at the failing input.  Bundle `[1]` is loading with one
registered waiter on chunk `[7]`, and bundle `[2]` is queued with one future
waiter on chunk `[8]`.  When the bundle read fails, the claim says every
waiter is completed with the error string and the queued bundle `[2]` is
started; the code instead returns the error from the spawned task only: no
waiter is completed, bundle `[1]` stays in `bundles_loading`, and the queue
is untouched.  The same state with a successful read shows the intended
sequence that the early return skips. -/
theorem bundleReadError_skips_waiters_and_scheduler :
    finishBundleLoad
        ⟨[([1], [([7], 1)])], [([2], [([8], 1)])], [[2]]⟩
        [1] [7] (Except.error "Error reading bundle") =
      some (⟨[([1], [([7], 1)])], [([2], [([8], 1)])], [[2]]⟩, [], [],
        Except.error "Error reading bundle") ∧
    finishBundleLoad
        ⟨[([1], [([7], 1)])], [([2], [([8], 1)])], [[2]]⟩
        [1] [7] (Except.ok [([7], [42])]) =
      some (⟨[([2], [])], [], []⟩, [([7], Except.ok [42])], [([8], 1)],
        Except.ok [42]) :=
  ⟨rfl, rfl⟩

/-! ## Restore pipeline (src/zbackup/repo.rs, read_and_expand_backup,
restore, follow_instructions)

`follow_instructions` decodes `BackupInstruction` records from a byte
stream and, per instruction, emits the referenced chunk (fetched through
`get_chunk_async_async`, failing with "Missing chunk" when absent from the
master index) followed by the literal bytes; an instruction with neither is
`CorruptBackup`.  Its two-slot pipeline only prefetches: the sink receives
the bytes in instruction order, which the embedding reflects by a fold.
Protobuf decoding is an external collaborator and enters as the `decode`
parameter; the available chunks enter as an association list; SHA-256
enters as the `sha256fn` parameter.

`read_and_expand_backup` reads the backup file and re-expands the
instruction stream `iterations` times; `restore` checks the backup name
(non-empty, leading slash), expands, then drives the final instruction
stream into the sink while hashing, and fails afterwards when the computed
hash differs from the one in the backup header.  The embedded `restore`
returns (bytes written to the sink, result). -/

structure BackupInstruction where
  chunkToEmit : Option ChunkId
  bytesToEmit : Option (List Nat)
deriving DecidableEq

def lookupChunk (chunks : List (ChunkId × List Nat)) (chunkId : ChunkId) :
    Option (List Nat) :=
  (chunks.find? (fun chunk => chunk.1 = chunkId)).map (fun chunk => chunk.2)

def bytesToHex (bytes : List Nat) : String :=
  String.join (bytes.map (fun b =>
    String.mk [Nat.digitChar (b / 16 % 16), Nat.digitChar (b % 16)]))

/-- Embeds `follow_instruction_async_async`: the bytes one instruction emits. -/
def followInstruction (chunks : List (ChunkId × List Nat))
    (instruction : BackupInstruction) : Except String (List Nat) :=
  match instruction.chunkToEmit, instruction.bytesToEmit with
  | some chunkId, some bytes =>
      match lookupChunk chunks chunkId with
      | some chunkData => Except.ok (chunkData ++ bytes)
      | none => Except.error ("Missing chunk: " ++ bytesToHex chunkId)
  | some chunkId, none =>
      match lookupChunk chunks chunkId with
      | some chunkData => Except.ok chunkData
      | none => Except.error ("Missing chunk: " ++ bytesToHex chunkId)
  | none, some bytes => Except.ok bytes
  | none, none => Except.error "Instruction with neither chunk or bytes"

/-- Embeds `follow_instructions` over a decoded instruction list: bytes written to
the sink, and the error that stopped the drive, if any. -/
def followInstructions (chunks : List (ChunkId × List Nat)) :
    List BackupInstruction → List Nat × Option String
  | [] => ([], none)
  | instruction :: rest =>
      match followInstruction chunks instruction with
      | Except.error e => ([], some e)
      | Except.ok bytes =>
          ((bytes ++ (followInstructions chunks rest).1),
            (followInstructions chunks rest).2)

structure BackupInfo where
  iterations : Nat
  backupData : List Nat
  sha256 : List Nat
deriving DecidableEq

/-- The expansion loop of `read_and_expand_backup`: re-feed the output as a
new instruction stream `iterations` times. -/
def expandBackup (decode : List Nat → Except String (List BackupInstruction))
    (chunks : List (ChunkId × List Nat)) : Nat → List Nat → Except String (List Nat)
  | 0, inputBytes => Except.ok inputBytes
  | n + 1, inputBytes =>
      match decode inputBytes with
      | Except.error e => Except.error e
      | Except.ok instructions =>
          match followInstructions chunks instructions with
          | (_, some e) => Except.error e
          | (outputBytes, none) => expandBackup decode chunks n outputBytes

def readAndExpandBackup (decode : List Nat → Except String (List BackupInstruction))
    (chunks : List (ChunkId × List Nat)) (backup : BackupInfo) :
    Except String (List Nat × List Nat) :=
  match expandBackup decode chunks backup.iterations backup.backupData with
  | Except.error e => Except.error e
  | Except.ok bytes => Except.ok (bytes, backup.sha256)

/-- Embeds `Repository::restore`: returns (bytes written to the sink, result). -/
def restore (decode : List Nat → Except String (List BackupInstruction))
    (chunks : List (ChunkId × List Nat)) (sha256fn : List Nat → List Nat)
    (backupName : String) (backup : BackupInfo) : List Nat × Except String Unit :=
  if backupName = "" then
    ([], Except.error "Backup name must not be empty")
  else if backupName.data.head? ≠ some '/' then
    ([], Except.error "Backup name must begin with a slash")
  else
    match readAndExpandBackup decode chunks backup with
    | Except.error e => ([], Except.error e)
    | Except.ok (inputBytes, checksum) =>
        match decode inputBytes with
        | Except.error e => ([], Except.error e)
        | Except.ok instructions =>
            match followInstructions chunks instructions with
            | (writtenBytes, some e) => (writtenBytes, Except.error e)
            | (writtenBytes, none) =>
                if checksum ≠ sha256fn writtenBytes then
                  (writtenBytes, Except.error
                    ("Expected sha256 checksum " ++ bytesToHex checksum ++
                      " but calculated " ++ bytesToHex (sha256fn writtenBytes)))
                else
                  (writtenBytes, Except.ok ())

/-- C1: when the backup name is valid, every instruction stream decodes and
every referenced chunk is available (so expansion and the final drive both
succeed), `restore` writes to the sink exactly the bytes obtained by
expanding the initial instruction stream `iterations` times and following
the final instruction stream, and it returns `Ok` if and only if the
SHA-256 of the written bytes equals the sha256 of the backup header; on a
mismatch it returns an error. -/
theorem restore_writes_expansion_and_checks_sha
    (decode : List Nat → Except String (List BackupInstruction))
    (chunks : List (ChunkId × List Nat)) (sha256fn : List Nat → List Nat)
    (backupName : String) (backup : BackupInfo)
    (expandedBytes writtenBytes : List Nat) (instructions : List BackupInstruction)
    (hname1 : backupName ≠ "")
    (hname2 : backupName.data.head? = some '/')
    (hexpand : expandBackup decode chunks backup.iterations backup.backupData =
      Except.ok expandedBytes)
    (hdecode : decode expandedBytes = Except.ok instructions)
    (hfollow : followInstructions chunks instructions = (writtenBytes, none)) :
    (restore decode chunks sha256fn backupName backup).1 = writtenBytes ∧
    ((restore decode chunks sha256fn backupName backup).2 = Except.ok () ↔
      sha256fn writtenBytes = backup.sha256) ∧
    (sha256fn writtenBytes ≠ backup.sha256 →
      (restore decode chunks sha256fn backupName backup).2 =
        Except.error
          ("Expected sha256 checksum " ++ bytesToHex backup.sha256 ++
            " but calculated " ++ bytesToHex (sha256fn writtenBytes))) := by
  have hrestore : restore decode chunks sha256fn backupName backup =
      (if backup.sha256 ≠ sha256fn writtenBytes then
        (writtenBytes, Except.error
          ("Expected sha256 checksum " ++ bytesToHex backup.sha256 ++
            " but calculated " ++ bytesToHex (sha256fn writtenBytes)))
      else
        (writtenBytes, Except.ok ())) := by
    unfold restore readAndExpandBackup
    rw [if_neg hname1, if_neg (by rw [hname2]; simp), hexpand]
    simp only [hdecode, hfollow]
  by_cases hsha : backup.sha256 = sha256fn writtenBytes
  · rw [hrestore, if_neg (by simpa using hsha)]
    refine ⟨rfl, ?_, ?_⟩
    · simp [hsha]
    · intro hne
      exact absurd hsha.symm hne
  · rw [hrestore, if_pos (by simpa using hsha)]
    refine ⟨rfl, ?_, ?_⟩
    · simp
      intro hcontra
      exact absurd hcontra.symm hsha
    · intro hne
      rfl

/-- Concrete decoder for the C1 witness: `[0]` decodes to one literal
instruction producing `[9]`, and `[9]` decodes to a chunk-plus-literal
instruction followed by a pure literal. -/
def restoreWitnessDecode : List Nat → Except String (List BackupInstruction) :=
  fun inputBytes =>
    if inputBytes = [0] then
      Except.ok [⟨none, some [9]⟩]
    else if inputBytes = [9] then
      Except.ok [⟨some [3], some [1]⟩, ⟨none, some [2]⟩]
    else
      Except.error "decode failure"

/-- Concrete stand-in hash for the C1 witness. -/
def restoreWitnessSha (bytes : List Nat) : List Nat :=
  bytes.length :: bytes

/-- C1 witness: one iteration expands `[0]` to `[9]`; the final stream
emits chunk `[3] = [5, 6]`, literal `[1]`, literal `[2]`; the sink receives
`[5, 6, 1, 2]` and the restore succeeds exactly for the matching header
hash, failing on a header with a different hash. -/
theorem restore_writes_expansion_and_checks_sha_witness :
    (restore restoreWitnessDecode [([3], [5, 6])] restoreWitnessSha "/b"
        ⟨1, [0], [4, 5, 6, 1, 2]⟩).1 = [5, 6, 1, 2] ∧
    (restore restoreWitnessDecode [([3], [5, 6])] restoreWitnessSha "/b"
        ⟨1, [0], [4, 5, 6, 1, 2]⟩).2 = Except.ok () ∧
    (restore restoreWitnessDecode [([3], [5, 6])] restoreWitnessSha "/b"
        ⟨1, [0], [0]⟩).2 =
      Except.error
        ("Expected sha256 checksum " ++ bytesToHex [0] ++
          " but calculated " ++ bytesToHex [4, 5, 6, 1, 2]) :=
  have hok := restore_writes_expansion_and_checks_sha restoreWitnessDecode
    [([3], [5, 6])] restoreWitnessSha "/b" ⟨1, [0], [4, 5, 6, 1, 2]⟩
    [9] [5, 6, 1, 2] [⟨some [3], some [1]⟩, ⟨none, some [2]⟩]
    (by decide) rfl rfl rfl rfl
  have hbad := restore_writes_expansion_and_checks_sha restoreWitnessDecode
    [([3], [5, 6])] restoreWitnessSha "/b" ⟨1, [0], [0]⟩
    [9] [5, 6, 1, 2] [⟨some [3], some [1]⟩, ⟨none, some [2]⟩]
    (by decide) rfl rfl rfl rfl
  ⟨hok.1, hok.2.1.mpr (by decide), hbad.2.2 (by decide)⟩
